import Mathlib

/-!
Verification of the image2saw audio core (`image2saw_pkg/audio.py`,
`image2saw_pkg/image_proc.py`, `live_tui.py`).

The Python code computes with IEEE doubles; every double is a rational
number, so the development is stated over an arbitrary linear ordered
field `K` with a floor (instantiated at `ℚ` for executable evaluation and
at `ℝ` where the source evaluates transcendental functions).  The three
places where the source evaluates a transcendental function
(`constant_power_pan`, the sine waveform table, the raised-cosine fade)
are abstracted as function parameters; every theorem below holds for all
values of those parameters.
-/

namespace Image2Saw

/-- Size of the waveform lookup table (`audio.py`, `WAVE_LUT_SIZE = 4096`). -/
def WAVE_LUT_SIZE : ℕ := 4096

variable {K : Type*} [LinearOrderedField K] [FloorRing K]

/-- Truncation toward zero: the behaviour of Python `int(...)` on a float. -/
def kTrunc (q : K) : ℤ := if 0 ≤ q then ⌊q⌋ else -⌊-q⌋

/-- Round half to even: the behaviour of `np.round` on a float. -/
def npRound (q : K) : ℤ :=
  let f := ⌊q⌋
  let r := q - (f : K)
  if r < 1 / 2 then f
  else if 1 / 2 < r then f + 1
  else if f % 2 = 0 then f else f + 1

/-- One oscillator bound to one pixel (`audio.py`, dataclass `Osc`).
The field `stop` models the source field `end`, which is a Lean keyword. -/
structure Osc (K : Type*) where
  f : K
  start : K
  stop : K
  pan_l : K
  pan_r : K
deriving DecidableEq

/-- Model of `image_proc.zigzag_indices`: row-major traversal, even rows left to
right, odd rows right to left. -/
def zigzag_indices (h w : ℕ) : List (ℕ × ℕ) :=
  ((List.range h).map fun r =>
    (if r % 2 = 0 then List.range w else (List.range w).reverse).map fun c => (r, c)).join

/-- Model of `audio.plan_schedule`.  Here `cpp` abstracts the float implementation of
`constant_power_pan` (instantiated with the exact cosine/sine pair over
`ℝ` below); `freqs` is the frequency grid (shape `size × size`, so
`N = freqs.size = size * size`); `sr` is accepted and unused exactly as
in the source. -/
def plan_schedule (cpp : K → K × K) (freqs : ℕ → ℕ → K) (size : ℕ) (sr : ℕ)
    (step_ms : K) (sustain_s : K) (stereo : Bool) (voices : ℤ) :
    List (Osc K) × K :=
  let w := size
  let N := size * size
  let step_s := step_ms / 1000
  let T_base : K := if 0 < N then ((N : K) - 1 + (voices : K)) * step_s else 0
  let T := T_base + sustain_s
  let pan_cache : ℕ → K × K := fun c =>
    if stereo then cpp ((c : K) / (if 1 < w then (w : K) - 1 else 1)) else (1, 1)
  let order := zigzag_indices size w
  let oscs := order.enum.map fun p =>
    { f := freqs p.2.1 p.2.2
      start := (p.1 : K) * step_s
      stop := ((p.1 : K) + (voices : K)) * step_s
      pan_l := (pan_cache p.2.2).1
      pan_r := (pan_cache p.2.2).2 }
  (oscs, T)

/-- Model of `audio.constant_power_pan` over the reals: `0` is full left, `1` is
full right. -/
noncomputable def constant_power_pan (x_norm : ℝ) : ℝ × ℝ :=
  (Real.cos ((Real.pi / 2) * x_norm), Real.sin ((Real.pi / 2) * x_norm))

/-- A default oscillator, used only as the out-of-range value of `List.getD`. -/
def oscDefault : Osc K := ⟨0, 0, 0, 0, 0⟩

/-- Number of output samples, `n_total = int(math.ceil(T * sr))` in
`render_audio`. -/
def nTotalOf (T : K) (sr : ℕ) : ℕ := (⌈T * (sr : K)⌉).toNat

/-- Rounded start sample of the `i`-th oscillator,
`start_samples = np.round(start_s_arr * sr)` in `render_audio`. -/
def startSamp (oscs : List (Osc K)) (sr : ℕ) (i : ℕ) : ℤ :=
  npRound ((oscs.getD i oscDefault).start * (sr : K))

/-- Rounded end sample of the `i`-th oscillator,
`end_samples = np.round(end_s_arr * sr)` in `render_audio`. -/
def endSamp (oscs : List (Osc K)) (sr : ℕ) (i : ℕ) : ℤ :=
  npRound ((oscs.getD i oscDefault).stop * (sr : K))

/-- The frequency grid `[[100, 200], [300, 400]]` of the spec scenario. -/
def freqs2x2 : ℕ → ℕ → ℚ := fun r c =>
  if r = 0 then (if c = 0 then 100 else 200) else (if c = 0 then 300 else 400)

/-- The per-oscillator gain of `render_audio`:
`1.0 / math.sqrt(voices) * 0.95 if voices > 0 else 1.0`.  `sqrtv`
abstracts the float value of `math.sqrt(voices)` (exactly `1` when
`voices = 1`). -/
def perOscGain (sqrtv : K) (voices : ℤ) : K :=
  if 0 < voices then 1 / sqrtv * (95 / 100) else 1

/-- Frequency of the `i`-th oscillator (`f_arr` in `render_audio`). -/
def fArr (oscs : List (Osc K)) (i : ℕ) : K := (oscs.getD i oscDefault).f

/-- Left pan gain of the `i`-th oscillator (`pan_l_arr`). -/
def panLArr (oscs : List (Osc K)) (i : ℕ) : K := (oscs.getD i oscDefault).pan_l

/-- Right pan gain of the `i`-th oscillator (`pan_r_arr`). -/
def panRArr (oscs : List (Osc K)) (i : ℕ) : K := (oscs.getD i oscDefault).pan_r

/-- Model of `audio._build_waveform_lut` as a table of exact values.  The table
entry at index `k` is the analytic shape evaluated at phase `k/size`
(`np.linspace(0, 1, size, endpoint=False)` is exact for `size = 4096`).
`sinTab` abstracts the float table `np.sin(2*pi*phase)` of the sine
branch; saw, triangle and square are exact field expressions.  The error
string keeps the source's message (apostrophe elided). -/
def build_waveform_lut (sinTab : ℕ → K) (waveform : String) (size : ℕ) :
    Except String (ℕ → K) :=
  let wf := waveform.toLower
  if wf = "saw" then Except.ok (fun k => 2 * ((k : K) / (size : K)) - 1)
  else if wf = "sine" then Except.ok sinTab
  else if wf = "triangle" then
    Except.ok (fun k =>
      2 * |2 * ((k : K) / (size : K) - (⌊(k : K) / (size : K) + 1 / 2⌋ : ℤ))| - 1)
  else if wf = "square" then
    Except.ok (fun k => if (k : K) / (size : K) < 1 / 2 then 1 else -1)
  else Except.error ("Forme d onde inconnue pour la LUT : " ++ waveform)

/-- Model of `audio._waveform_from_lut`: map a fractional phase to a table index by
`floor(phase*size)`, clamped (`np.clip`) into `[0, size-1]`. -/
def waveformFromLut (lut : ℕ → K) (size : ℕ) (phase : K) : K :=
  lut ((max 0 (min ((size : ℤ) - 1) ⌊phase * (size : K)⌋)).toNat)

/-- The anti-click envelope of `render_audio` for one oscillator at one
absolute sample: raised-cosine fade-in over the first `nf_local` samples
and fade-out over the last `nf_local`, with
`nf_local = min(nf, seg_len // 2)` (numpy floor division); no envelope
when `nf = 0` or `nf_local <= 0`.  `cosPi` abstracts the float function
`x ↦ np.cos(np.pi * x)`. -/
def envVal (cosPi : K → K) (nf : ℕ) (stI enI : ℤ) (s : ℕ) : K :=
  if 0 < nf then
    let nfj : ℤ := min (nf : ℤ) (Int.fdiv (enI - stI) 2)
    if nfj ≤ 0 then 1
    else
      let ds : ℤ := (s : ℤ) - stI
      let de : ℤ := enI - (s : ℤ)
      (if ds < nfj then (1 - cosPi ((ds : K) / (nfj : K))) / 2 else 1) *
        (if de ≤ nfj then (1 - cosPi ((de : K) / (nfj : K))) / 2 else 1)
  else 1

/-- The contribution of oscillator `i` at absolute sample `s` in
`render_audio`'s block body: active-mask times LUT waveform at phase
`frac((t - start)·f)` times envelope times per-oscillator gain (the
source multiplies in the order mask, envelope, gain; the product is the
same). -/
def sigVal (lut : ℕ → K) (cosPi : K → K) (oscs : List (Osc K)) (sr : ℕ) (nf : ℕ)
    (gain : K) (i s : ℕ) : K :=
  let stI := startSamp oscs sr i
  let enI := endSamp oscs sr i
  let mask : K := if stI ≤ (s : ℤ) ∧ (s : ℤ) < enI then 1 else 0
  let t_rel : K := (s : K) / (sr : K) - (stI : K) / (sr : K)
  let frac := Int.fract (t_rel * fArr oscs i)
  mask * waveformFromLut lut WAVE_LUT_SIZE frac * envVal cosPi nf stI enI s * gain

/-- One block's buffer value at absolute sample `s`, summed over the
active oscillator list: mono accumulates `sum(sigs)` into both channels,
stereo accumulates `sum(sigs*pan_l)` and `sum(sigs*pan_r)`.  An empty
active list yields the zero buffer the source adds in its `continue`
branch. -/
def blockContrib (lut : ℕ → K) (cosPi : K → K) (oscs : List (Osc K)) (sr : ℕ) (nf : ℕ)
    (gain : K) (mono : Bool) (active : List ℕ) (s : ℕ) : K × K :=
  if mono then
    let v := (active.map fun i => sigVal lut cosPi oscs sr nf gain i s).sum
    (v, v)
  else
    ((active.map fun i => sigVal lut cosPi oscs sr nf gain i s * panLArr oscs i).sum,
      (active.map fun i => sigVal lut cosPi oscs sr nf gain i s * panRArr oscs i).sum)

/-- The mutable state of `render_audio`'s block sweep: the two output
accumulators, the active-oscillator index list and the two-pointer
admission cursor `next_osc`. -/
structure RState (K : Type*) where
  outL : ℕ → K
  outR : ℕ → K
  active : List ℕ
  nextOsc : ℕ

/-- The admission loop
`while next_osc < n_osc and start_samples[next_osc] < s1: append`. -/
def admitLoop (startS : ℕ → ℤ) (nOsc : ℕ) (s1 : ℤ) (next : ℕ) (act : List ℕ) :
    ℕ × List ℕ :=
  if h : next < nOsc ∧ startS next < s1 then
    admitLoop startS nOsc s1 (next + 1) (act ++ [next])
  else (next, act)
termination_by nOsc - next
decreasing_by omega

/-- One iteration of `render_audio`'s block loop for block `b`: admit
oscillators starting before `s1`, drop those ended at or before `s0`,
and add the block buffer into `out[s0:s1]`. -/
def renderBlock (lut : ℕ → K) (cosPi : K → K) (oscs : List (Osc K)) (sr : ℕ) (nf : ℕ)
    (gain : K) (mono : Bool) (nTotal nBlock : ℕ) (b : ℕ) (st : RState K) : RState K :=
  let s0 := b * nBlock
  let s1 := min nTotal ((b + 1) * nBlock)
  if s1 ≤ s0 then st
  else
    let pr := admitLoop (startSamp oscs sr) oscs.length (s1 : ℤ) st.nextOsc st.active
    let act2 := pr.2.filter fun i => decide ((s0 : ℤ) < endSamp oscs sr i)
    { outL := fun s =>
        if s0 ≤ s ∧ s < s1 then
          st.outL s + (blockContrib lut cosPi oscs sr nf gain mono act2 s).1
        else st.outL s
      outR := fun s =>
        if s0 ≤ s ∧ s < s1 then
          st.outR s + (blockContrib lut cosPi oscs sr nf gain mono act2 s).2
        else st.outR s
      active := act2
      nextOsc := pr.1 }

/-- Model of `n_block = max(1, int(sr * (block_ms / 1000.0)))`. -/
def nBlockOf (sr : ℕ) (block_ms : K) : ℕ := max 1 (kTrunc ((sr : K) * (block_ms / 1000))).toNat

/-- Model of `nf = max(int(sr * (fade_ms / 1000.0)), 0)`. -/
def nFadeOf (sr : ℕ) (fade_ms : K) : ℕ := (max (kTrunc ((sr : K) * (fade_ms / 1000))) 0).toNat

/-- Model of `audio.render_audio`.  The float-valued transcendental inputs are
abstracted: `sinTab` is the sine LUT, `cosPi` the fade cosine, `sqrtv`
the value of `math.sqrt(voices)`.  A raised Python exception is modelled
as `Except.error`; `blocks = ceil(n_total / n_block)` is modelled as the
exact ceiling. -/
def render_audio (sinTab : ℕ → K) (cosPi : K → K) (sqrtv : K) (oscs : List (Osc K))
    (T : K) (sr : ℕ) (block_ms : K) (mono : Bool) (waveform : String) (fade_ms : K)
    (voices : ℤ) : Except String (List (K × K)) :=
  let nTotal := nTotalOf T sr
  let nBlock := nBlockOf sr block_ms
  let gain := perOscGain sqrtv voices
  if oscs.length = 0 ∨ nTotal = 0 then Except.ok (List.replicate nTotal ((0 : K), (0 : K)))
  else
    let nf := nFadeOf sr fade_ms
    match build_waveform_lut sinTab waveform WAVE_LUT_SIZE with
    | Except.error e => Except.error e
    | Except.ok lut =>
      let blocks := (nTotal + nBlock - 1) / nBlock
      let fin := (List.range blocks).foldl
        (fun st b => renderBlock lut cosPi oscs sr nf gain mono nTotal nBlock b st)
        ⟨fun _ => 0, fun _ => 0, [], 0⟩
      Except.ok ((List.range nTotal).map fun s => (fin.outL s, fin.outR s))

/-- The whole-signal reference evaluation: at each sample, the sum of
every oscillator's (masked) contribution, independent of any block
decomposition. -/
def refSample (lut : ℕ → K) (cosPi : K → K) (oscs : List (Osc K)) (sr : ℕ) (nf : ℕ)
    (gain : K) (mono : Bool) (s : ℕ) : K × K :=
  blockContrib lut cosPi oscs sr nf gain mono (List.range oscs.length) s

/-- The loop invariant of `render_audio`'s block sweep after `k` blocks:
samples below the covered boundary `min nTotal (k*nBlock)` hold the
reference value and samples above are still zero; the admission cursor
has passed exactly the oscillators starting below the boundary; and the
active list is the admitted indices not yet ended at the previous
block's start. -/
def renderInv (lut : ℕ → K) (cosPi : K → K) (oscs : List (Osc K)) (sr nf : ℕ) (gain : K)
    (mono : Bool) (nTotal nBlock k : ℕ) (st : RState K) : Prop :=
  (∀ s, s < min nTotal (k * nBlock) →
    st.outL s = (refSample lut cosPi oscs sr nf gain mono s).1 ∧
    st.outR s = (refSample lut cosPi oscs sr nf gain mono s).2) ∧
  (∀ s, min nTotal (k * nBlock) ≤ s → st.outL s = 0 ∧ st.outR s = 0) ∧
  st.nextOsc ≤ oscs.length ∧
  (∀ i, i < st.nextOsc → startSamp oscs sr i < ((min nTotal (k * nBlock) : ℕ) : ℤ)) ∧
  st.active = (List.range st.nextOsc).filter
    (fun i => decide ((((k - 1) * nBlock : ℕ) : ℤ) < endSamp oscs sr i))

/-- The whole-signal reference renderer: identical to `render_audio`
except that every sample is evaluated directly by `refSample`, with no
block decomposition (and hence no `block_ms` argument). -/
def renderRef (sinTab : ℕ → K) (cosPi : K → K) (sqrtv : K) (oscs : List (Osc K)) (T : K)
    (sr : ℕ) (mono : Bool) (waveform : String) (fade_ms : K) (voices : ℤ) :
    Except String (List (K × K)) :=
  let nTotal := nTotalOf T sr
  if oscs.length = 0 ∨ nTotal = 0 then Except.ok (List.replicate nTotal ((0 : K), (0 : K)))
  else
    match build_waveform_lut sinTab waveform WAVE_LUT_SIZE with
    | Except.error e => Except.error e
    | Except.ok lut => Except.ok ((List.range nTotal).map
        (refSample lut cosPi oscs sr (nFadeOf sr fade_ms) (perOscGain sqrtv voices) mono))

/-- Number of `_build_waveform_lut` invocations one `render_audio` call
performs: `render_audio` reaches the unconditional build at line 210
unless it returns early (empty oscillator list or zero samples), so one
build per non-trivial call, on every call. -/
def renderLutBuilds (oscs : List (Osc K)) (T : K) (sr : ℕ) : ℕ :=
  if oscs.length = 0 ∨ nTotalOf T sr = 0 then 0 else 1

/-- Total `_build_waveform_lut` invocations across a sequence of
`render_audio` calls in one process (each call given by its oscillator
list, duration and sample rate); there is no module-level cache in the
source, so the builds simply accumulate. -/
def processLutBuilds (calls : List (List (Osc K) × K × ℕ)) : ℕ :=
  (calls.map fun c => renderLutBuilds c.1 c.2.1 c.2.2).sum

/-- Peak absolute value of `write_wav_int16_stereo`:
`np.max(np.abs(data_lr)) if data_lr.size > 0 else 1.0`.  The buffer is
modelled as a list of rows of arbitrary length (the source never
validates the shape); the maximum of a non-empty list of absolute values
equals this fold from `0`. -/
def peakOf (data : List (List K)) : K :=
  if data.flatten.isEmpty then 1 else (data.flatten.map fun x => |x|).foldl max 0

/-- The normalisation factor `norm = 1.0 if peak == 0 else min(1.0, 0.999 / peak)`. -/
def normOf (data : List (List K)) : K :=
  if peakOf data = 0 then 1 else min 1 ((999 / 1000) / peakOf data)

/-- Wrap-around of `astype(np.int16)` on an out-of-range integer. -/
def int16Wrap (z : ℤ) : ℤ := (z + 32768) % 65536 - 32768

/-- Model of `audio.write_wav_int16_stereo`, up to the byte container:
the int16 samples `(data_lr * norm * 32767.0).astype(np.int16)` that are
handed to `wave.writeframes`, in flattened order.  The source performs no
shape validation: every element of every row is encoded. -/
def write_wav_int16_stereo (data : List (List K)) : List ℤ :=
  data.flatten.map fun x => int16Wrap (kTrunc (x * normOf data * 32767))

/-- The shared looper state of `live_tui.AudioLooper`: sample rate, the
loopable stereo buffer and the read cursor `pos`. -/
structure Looper (K : Type*) where
  sample_rate : ℕ
  buffer : List (K × K)
  pos : ℕ

/-- The argument shapes `update_buffer` accepts: 1-D mono, `(n, 1)`
column, or `(n, 2)` stereo. -/
inductive NewBuffer (K : Type*) where
  | mono : List K → NewBuffer K
  | column : List K → NewBuffer K
  | stereo : List (K × K) → NewBuffer K

/-- The shape conversion at the top of `update_buffer`:
`np.stack([b, b], axis=-1)` for 1-D input, `np.repeat(b, 2, axis=1)` for
a column, identity for stereo. -/
def convertBuffer : NewBuffer K → List (K × K)
  | NewBuffer.mono xs => xs.map fun x => (x, x)
  | NewBuffer.column xs => xs.map fun x => (x, x)
  | NewBuffer.stereo xs => xs

/-- Model of `AudioLooper.update_buffer`: under the lock, replace the buffer and
reset the cursor to zero. -/
def update_buffer (st : Looper K) (nb : NewBuffer K) : Looper K :=
  { st with buffer := convertBuffer nb, pos := 0 }

/-- Model of `AudioLooper._callback`: emit `frames` samples from the loop buffer
starting at the cursor, wrapping as often as needed; silence if the
buffer is empty.  Returns the emitted samples and the updated state. -/
def looperCallback (st : Looper K) (frames : ℕ) : List (K × K) × Looper K :=
  let buf := st.buffer
  if buf.length = 0 then (List.replicate frames ((0 : K), (0 : K)), st)
  else
    let n := buf.length
    let p := st.pos
    let remaining := n - p
    if frames ≤ remaining then
      ((buf.drop p).take frames, { st with pos := (p + frames) % n })
    else
      let part1 := remaining
      let part2 := frames - part1
      let loops := part2 / n
      let rest := part2 % n
      (buf.drop p ++ (List.replicate loops buf).flatten ++ buf.take rest,
        { st with pos := rest })

/-- Length of the zigzag traversal: one index pair per grid cell. -/
theorem zigzag_indices_length (h w : ℕ) : (zigzag_indices h w).length = h * w := by
  unfold zigzag_indices
  rw [List.length_join]
  simp [Function.comp]
  induction h with
  | zero => simp
  | succ n ih =>
      rw [List.range_succ]
      by_cases hp : n % 2 = 0 <;> simp [hp, List.map_append, List.sum_append, ih] <;> ring

/-- The window start/stop of the `i`-th scheduled oscillator, as functions
of the index alone. -/
theorem plan_schedule_get (cpp : K → K × K) (freqs : ℕ → ℕ → K) (size : ℕ) (sr : ℕ)
    (step_ms : K) (sustain_s : K) (stereo : Bool) (voices : ℤ)
    (i : ℕ) (hi : i < (plan_schedule cpp freqs size sr step_ms sustain_s stereo voices).1.length) :
    ((plan_schedule cpp freqs size sr step_ms sustain_s stereo voices).1[i]).start
        = (i : K) * (step_ms / 1000) ∧
    ((plan_schedule cpp freqs size sr step_ms sustain_s stereo voices).1[i]).stop
        = ((i : K) + (voices : K)) * (step_ms / 1000) := by
  have hlen : i < (zigzag_indices size size).enum.length := by
    simpa [plan_schedule] using hi
  have h2 : i < (zigzag_indices size size).length := by simpa using hlen
  constructor <;>
    simp [plan_schedule, List.getElem_map, List.getElem_enum]

/-- C1: for every grid with at least one cell the Scheduler gives the
`i`-th oscillator in scan order the window `start = i*step_s`,
`stop = (i+voices)*step_s`, and returns `T = (N-1+voices)*step_s + sustain_s`
with `N = size*size`; and on the concrete scenario (grid
`[[100,200],[300,400]]`, `step_ms = 100`, `voices = 2`, `sr = 8000`,
`sustain_s = 0`, mono) it yields 4 oscillators, `T = 1/2` (4000 samples at
8000 Hz), oscillator 0 spanning samples `[0, 1600)` and oscillator 1
spanning `[800, 2400)`. -/
theorem plan_schedule_window_formula (cpp : K → K × K) (freqs : ℕ → ℕ → K)
    (size : ℕ) (sr : ℕ) (step_ms : K) (sustain_s : K) (stereo : Bool) (voices : ℤ)
    (hsize : 1 ≤ size) :
    (plan_schedule cpp freqs size sr step_ms sustain_s stereo voices).1.length = size * size ∧
    (∀ i (hi : i < (plan_schedule cpp freqs size sr step_ms sustain_s stereo voices).1.length),
      ((plan_schedule cpp freqs size sr step_ms sustain_s stereo voices).1[i]).start
          = (i : K) * (step_ms / 1000) ∧
      ((plan_schedule cpp freqs size sr step_ms sustain_s stereo voices).1[i]).stop
          = ((i : K) + (voices : K)) * (step_ms / 1000)) ∧
    (plan_schedule cpp freqs size sr step_ms sustain_s stereo voices).2
        = (((size * size : ℕ) : K) - 1 + (voices : K)) * (step_ms / 1000) + sustain_s ∧
    ((plan_schedule (K := ℚ) (fun _ => (1, 1)) freqs2x2 2 8000 100 0 false 2).1.length = 4 ∧
      (plan_schedule (K := ℚ) (fun _ => (1, 1)) freqs2x2 2 8000 100 0 false 2).2 = 1 / 2 ∧
      nTotalOf ((plan_schedule (K := ℚ) (fun _ => (1, 1)) freqs2x2 2 8000 100 0 false 2).2) 8000 = 4000 ∧
      startSamp ((plan_schedule (K := ℚ) (fun _ => (1, 1)) freqs2x2 2 8000 100 0 false 2).1) 8000 0 = 0 ∧
      endSamp ((plan_schedule (K := ℚ) (fun _ => (1, 1)) freqs2x2 2 8000 100 0 false 2).1) 8000 0 = 1600 ∧
      startSamp ((plan_schedule (K := ℚ) (fun _ => (1, 1)) freqs2x2 2 8000 100 0 false 2).1) 8000 1 = 800 ∧
      endSamp ((plan_schedule (K := ℚ) (fun _ => (1, 1)) freqs2x2 2 8000 100 0 false 2).1) 8000 1 = 2400) := by
  refine ⟨?_, ?_, ?_, ?_⟩
  · simp [plan_schedule, zigzag_indices_length]
  · intro i hi
    exact plan_schedule_get cpp freqs size sr step_ms sustain_s stereo voices i hi
  · have hN : 0 < size * size := Nat.mul_pos hsize hsize
    simp [plan_schedule, hN]
  · exact of_decide_eq_true (by with_unfolding_all rfl)

/-- Witness for `plan_schedule_window_formula` at a concrete input. -/
theorem plan_schedule_window_formula_witness :
    1 ≤ 2 ∧
    ((plan_schedule (K := ℚ) (fun _ => (1, 1)) freqs2x2 2 8000 100 0 false 2).1.length = 2 * 2 ∧
    (∀ i (hi : i < (plan_schedule (K := ℚ) (fun _ => (1, 1)) freqs2x2 2 8000 100 0 false 2).1.length),
      ((plan_schedule (K := ℚ) (fun _ => (1, 1)) freqs2x2 2 8000 100 0 false 2).1[i]).start
          = (i : ℚ) * (100 / 1000) ∧
      ((plan_schedule (K := ℚ) (fun _ => (1, 1)) freqs2x2 2 8000 100 0 false 2).1[i]).stop
          = ((i : ℚ) + ((2 : ℤ) : ℚ)) * (100 / 1000)) ∧
    (plan_schedule (K := ℚ) (fun _ => (1, 1)) freqs2x2 2 8000 100 0 false 2).2
        = (((2 * 2 : ℕ) : ℚ) - 1 + ((2 : ℤ) : ℚ)) * (100 / 1000) + 0 ∧
    ((plan_schedule (K := ℚ) (fun _ => (1, 1)) freqs2x2 2 8000 100 0 false 2).1.length = 4 ∧
      (plan_schedule (K := ℚ) (fun _ => (1, 1)) freqs2x2 2 8000 100 0 false 2).2 = 1 / 2 ∧
      nTotalOf ((plan_schedule (K := ℚ) (fun _ => (1, 1)) freqs2x2 2 8000 100 0 false 2).2) 8000 = 4000 ∧
      startSamp ((plan_schedule (K := ℚ) (fun _ => (1, 1)) freqs2x2 2 8000 100 0 false 2).1) 8000 0 = 0 ∧
      endSamp ((plan_schedule (K := ℚ) (fun _ => (1, 1)) freqs2x2 2 8000 100 0 false 2).1) 8000 0 = 1600 ∧
      startSamp ((plan_schedule (K := ℚ) (fun _ => (1, 1)) freqs2x2 2 8000 100 0 false 2).1) 8000 1 = 800 ∧
      endSamp ((plan_schedule (K := ℚ) (fun _ => (1, 1)) freqs2x2 2 8000 100 0 false 2).1) 8000 1 = 2400)) :=
  ⟨by decide,
    plan_schedule_window_formula (K := ℚ) (fun _ => (1, 1)) freqs2x2 2 8000 100 0 false 2 (by decide)⟩

/-- Counting elements of an enumerated list by a predicate on the index
alone is counting indices below the length. -/
theorem length_filter_enum_fst {α : Type*} (l : List α) (P : ℕ → Bool) :
    (l.enum.filter (fun p => P p.1)).length = ((List.range l.length).filter P).length := by
  rw [← List.countP_eq_length_filter, ← List.countP_eq_length_filter]
  have h1 : l.enum.map Prod.fst = List.range l.length := List.enum_map_fst l
  calc List.countP (fun p => P p.1) l.enum
      = List.countP P (l.enum.map Prod.fst) := by
        rw [List.countP_map]
        rfl
    _ = List.countP P (List.range l.length) := by rw [h1]

/-- A Bool-valued filter over `List.range` counts the same elements as the
corresponding `Finset.range` filter. -/
theorem length_filter_range_eq_card (n : ℕ) (p : ℕ → Bool) :
    ((List.range n).filter p).length = ((Finset.range n).filter (fun i => p i = true)).card := by
  simp [Finset.range, Finset.filter, Multiset.range]

/-- Exactly `voices` naturals `i < n` lie in the integer window
`(k - voices, k]` when `voices - 1 ≤ k < n`. -/
theorem countP_range_window (n : ℕ) (k voices : ℤ) (hv : 1 ≤ voices)
    (hk0 : voices - 1 ≤ k) (hkn : k < (n : ℤ)) :
    ((List.range n).filter (fun i : ℕ => decide (k - voices < (i : ℤ) ∧ (i : ℤ) ≤ k))).length
      = voices.toNat := by
  have hk : 0 ≤ k := le_trans (by omega) hk0
  rw [length_filter_range_eq_card]
  have hIcc : (Finset.range n).filter
        (fun i : ℕ => (fun j : ℕ => decide (k - voices < (j : ℤ) ∧ (j : ℤ) ≤ k)) i = true)
      = Finset.Icc (k - voices + 1).toNat k.toNat := by
    ext x
    simp only [Finset.mem_filter, Finset.mem_range, Finset.mem_Icc, decide_eq_true_eq]
    omega
  rw [hIcc, Nat.card_Icc]
  omega

/-- C2: for every schedule from `plan_schedule` with `step_ms > 0` and
`voices ≥ 1`, oscillator start times are non-decreasing in scan order, and
for `N > voices` any instant `t` with
`(voices-1)*step_s ≤ t < N*step_s` has exactly `voices` oscillators with
`start ≤ t < stop`. -/
theorem plan_schedule_sliding_window (cpp : K → K × K) (freqs : ℕ → ℕ → K)
    (size sr : ℕ) (step_ms sustain_s : K) (stereo : Bool) (voices : ℤ)
    (hstep : 0 < step_ms) (hv : 1 ≤ voices)
    (hN : voices < ((size * size : ℕ) : ℤ)) (t : K)
    (ht1 : ((voices : K) - 1) * (step_ms / 1000) ≤ t)
    (ht2 : t < ((size * size : ℕ) : K) * (step_ms / 1000)) :
    (∀ i j, ∀ hij : i ≤ j,
      ∀ hj : j < (plan_schedule cpp freqs size sr step_ms sustain_s stereo voices).1.length,
      ((plan_schedule cpp freqs size sr step_ms sustain_s stereo voices).1.get
          ⟨i, lt_of_le_of_lt hij hj⟩).start ≤
        ((plan_schedule cpp freqs size sr step_ms sustain_s stereo voices).1.get ⟨j, hj⟩).start) ∧
    ((plan_schedule cpp freqs size sr step_ms sustain_s stereo voices).1.filter
        (fun o => decide (o.start ≤ t ∧ t < o.stop))).length = voices.toNat := by
  have hstepS : 0 < step_ms / 1000 := div_pos hstep (by norm_num)
  constructor
  · intro i j hij hj
    have hi : i < (plan_schedule cpp freqs size sr step_ms sustain_s stereo voices).1.length :=
      lt_of_le_of_lt hij hj
    have h1 := (plan_schedule_get cpp freqs size sr step_ms sustain_s stereo voices i hi).1
    have h2 := (plan_schedule_get cpp freqs size sr step_ms sustain_s stereo voices j hj).1
    simp only [List.get_eq_getElem]
    rw [h1, h2]
    exact mul_le_mul_of_nonneg_right (by exact_mod_cast hij) (le_of_lt hstepS)
  · have hk0 : voices - 1 ≤ ⌊t / (step_ms / 1000)⌋ := by
      rw [Int.le_floor, le_div_iff hstepS]
      push_cast
      exact_mod_cast ht1
    have hkn : ⌊t / (step_ms / 1000)⌋ < ((size * size : ℕ) : ℤ) := by
      have ht2b : t / (step_ms / 1000) < ((size * size : ℕ) : K) := by
        rw [div_lt_iff hstepS]; exact ht2
      exact Int.floor_lt.mpr (by exact_mod_cast ht2b)
    have key : ∀ i : ℕ,
        ((i : K) * (step_ms / 1000) ≤ t ∧ t < ((i : K) + (voices : K)) * (step_ms / 1000))
          ↔ (⌊t / (step_ms / 1000)⌋ - voices < (i : ℤ) ∧ (i : ℤ) ≤ ⌊t / (step_ms / 1000)⌋) := by
      intro i
      have h1 : (i : K) * (step_ms / 1000) ≤ t ↔ (i : ℤ) ≤ ⌊t / (step_ms / 1000)⌋ := by
        rw [Int.le_floor, le_div_iff hstepS]
        push_cast
        exact Iff.rfl
      have h2 : t < ((i : K) + (voices : K)) * (step_ms / 1000)
          ↔ ⌊t / (step_ms / 1000)⌋ - voices < (i : ℤ) := by
        have hiff : t < ((i : K) + (voices : K)) * (step_ms / 1000)
            ↔ ⌊t / (step_ms / 1000)⌋ < (i : ℤ) + voices := by
          constructor
          · intro h
            apply Int.floor_lt.mpr
            rw [div_lt_iff hstepS]
            push_cast
            exact h
          · intro h
            have h3 := Int.floor_lt.mp h
            rw [div_lt_iff hstepS] at h3
            push_cast at h3
            exact h3
        rw [hiff]
        omega
      rw [h1, h2]
      exact and_comm
    have hmap : (plan_schedule cpp freqs size sr step_ms sustain_s stereo voices).1
        = (zigzag_indices size size).enum.map
            (fun p : ℕ × (ℕ × ℕ) =>
              ({ f := freqs p.2.1 p.2.2
                 start := (p.1 : K) * (step_ms / 1000)
                 stop := ((p.1 : K) + (voices : K)) * (step_ms / 1000)
                 pan_l := (if stereo then
                     cpp ((p.2.2 : K) / (if 1 < size then (size : K) - 1 else 1)) else (1, 1)).1
                 pan_r := (if stereo then
                     cpp ((p.2.2 : K) / (if 1 < size then (size : K) - 1 else 1)) else (1, 1)).2 }
                : Osc K)) := rfl
    rw [hmap, List.filter_map, List.length_map]
    have hcongr : (zigzag_indices size size).enum.filter
          ((fun o : Osc K => decide (o.start ≤ t ∧ t < o.stop)) ∘
            (fun p : ℕ × (ℕ × ℕ) =>
              ({ f := freqs p.2.1 p.2.2
                 start := (p.1 : K) * (step_ms / 1000)
                 stop := ((p.1 : K) + (voices : K)) * (step_ms / 1000)
                 pan_l := (if stereo then
                     cpp ((p.2.2 : K) / (if 1 < size then (size : K) - 1 else 1)) else (1, 1)).1
                 pan_r := (if stereo then
                     cpp ((p.2.2 : K) / (if 1 < size then (size : K) - 1 else 1)) else (1, 1)).2 }
                : Osc K)))
        = (zigzag_indices size size).enum.filter
            (fun q : ℕ × (ℕ × ℕ) =>
              decide (⌊t / (step_ms / 1000)⌋ - voices < (q.1 : ℤ)
                ∧ (q.1 : ℤ) ≤ ⌊t / (step_ms / 1000)⌋)) := by
      apply List.filter_congr
      intro q _
      simp only [Function.comp]
      exact decide_eq_decide.mpr (key q.1)
    rw [hcongr]
    refine Eq.trans (length_filter_enum_fst (zigzag_indices size size)
      (fun i : ℕ => decide (⌊t / (step_ms / 1000)⌋ - voices < (i : ℤ)
        ∧ (i : ℤ) ≤ ⌊t / (step_ms / 1000)⌋))) ?_
    rw [zigzag_indices_length]
    exact countP_range_window (size * size) ⌊t / (step_ms / 1000)⌋ voices hv hk0 hkn

/-- Witness for `plan_schedule_sliding_window` at a concrete input. -/
theorem plan_schedule_sliding_window_witness :
    ((0 : ℚ) < 100 ∧ (1 : ℤ) ≤ 2 ∧ (2 : ℤ) < ((2 * 2 : ℕ) : ℤ) ∧
      (((2 : ℤ) : ℚ) - 1) * (100 / 1000) ≤ (15 : ℚ) / 100 ∧
      (15 : ℚ) / 100 < ((2 * 2 : ℕ) : ℚ) * (100 / 1000)) ∧
    (((plan_schedule (K := ℚ) (fun _ => (1, 1)) freqs2x2 2 8000 100 0 false 2).1.filter
        (fun o => decide (o.start ≤ (15 : ℚ) / 100 ∧ (15 : ℚ) / 100 < o.stop))).length
      = (2 : ℤ).toNat) :=
  ⟨⟨by norm_num, by norm_num, by norm_num, by norm_num, by norm_num⟩,
    (plan_schedule_sliding_window (K := ℚ) (fun _ => (1, 1)) freqs2x2 2 8000 100 0 false 2
      (by norm_num) (by norm_num) (by norm_num) ((15 : ℚ) / 100)
      (by norm_num) (by norm_num)).2⟩

/-- The pan gains of the `i`-th scheduled oscillator come from the pan
cache at that oscillator's column. -/
theorem plan_schedule_pan_get (cpp : K → K × K) (freqs : ℕ → ℕ → K) (size : ℕ) (sr : ℕ)
    (step_ms : K) (sustain_s : K) (stereo : Bool) (voices : ℤ)
    (i : ℕ) (hi : i < (plan_schedule cpp freqs size sr step_ms sustain_s stereo voices).1.length) :
    ((plan_schedule cpp freqs size sr step_ms sustain_s stereo voices).1[i]).pan_l
        = (if stereo then
            cpp ((((zigzag_indices size size).getD i (0, 0)).2 : K)
              / (if 1 < size then (size : K) - 1 else 1)) else (1, 1)).1 ∧
    ((plan_schedule cpp freqs size sr step_ms sustain_s stereo voices).1[i]).pan_r
        = (if stereo then
            cpp ((((zigzag_indices size size).getD i (0, 0)).2 : K)
              / (if 1 < size then (size : K) - 1 else 1)) else (1, 1)).2 := by
  have hlen : i < (zigzag_indices size size).enum.length := by
    simpa [plan_schedule] using hi
  have h2 : i < (zigzag_indices size size).length := by simpa using hlen
  constructor <;>
    simp [plan_schedule, List.getElem_map, List.getElem_enum, List.getD,
      List.getElem?_eq_getElem h2, Option.getD_some]

/-- C5 (amended): panning follows the constant-power law
`gain_left = cos(pi/2*x)`, `gain_right = sin(pi/2*x)` with `x` the
normalized column position; mono sets both gains to `1`; but a width-1
grid gets `x = 0`, a fixed FULL-LEFT pan `(1, 0)` (not an equal-gain mid
pan). -/
theorem plan_schedule_pan_law :
    (∀ (cpp : K → K × K) (freqs : ℕ → ℕ → K) (size sr : ℕ) (step_ms sustain_s : K)
       (voices : ℤ) (i : ℕ)
       (hi : i < (plan_schedule cpp freqs size sr step_ms sustain_s false voices).1.length),
       ((plan_schedule cpp freqs size sr step_ms sustain_s false voices).1[i]).pan_l = 1 ∧
       ((plan_schedule cpp freqs size sr step_ms sustain_s false voices).1[i]).pan_r = 1) ∧
    (∀ (freqs : ℕ → ℕ → ℝ) (size sr : ℕ) (step_ms sustain_s : ℝ) (voices : ℤ) (i : ℕ)
       (hi : i < (plan_schedule constant_power_pan freqs size sr step_ms
                    sustain_s true voices).1.length),
       ((plan_schedule constant_power_pan freqs size sr step_ms sustain_s true voices).1[i]).pan_l
           = Real.cos ((Real.pi / 2) * ((((zigzag_indices size size).getD i (0, 0)).2 : ℝ)
               / (if 1 < size then (size : ℝ) - 1 else 1))) ∧
       ((plan_schedule constant_power_pan freqs size sr step_ms sustain_s true voices).1[i]).pan_r
           = Real.sin ((Real.pi / 2) * ((((zigzag_indices size size).getD i (0, 0)).2 : ℝ)
               / (if 1 < size then (size : ℝ) - 1 else 1)))) ∧
    (∀ (freqs : ℕ → ℕ → ℝ) (sr : ℕ) (step_ms sustain_s : ℝ) (voices : ℤ) (i : ℕ)
       (hi : i < (plan_schedule constant_power_pan freqs 1 sr step_ms
                    sustain_s true voices).1.length),
       ((plan_schedule constant_power_pan freqs 1 sr step_ms sustain_s true voices).1[i]).pan_l
           = 1 ∧
       ((plan_schedule constant_power_pan freqs 1 sr step_ms sustain_s true voices).1[i]).pan_r
           = 0) := by
  refine ⟨?_, ?_, ?_⟩
  · intro cpp freqs size sr step_ms sustain_s voices i hi
    have h := plan_schedule_pan_get cpp freqs size sr step_ms sustain_s false voices i hi
    simpa using h
  · intro freqs size sr step_ms sustain_s voices i hi
    have h := plan_schedule_pan_get constant_power_pan freqs size sr step_ms sustain_s
      true voices i hi
    simpa [constant_power_pan] using h
  · intro freqs sr step_ms sustain_s voices i hi
    have h := plan_schedule_pan_get constant_power_pan freqs 1 sr step_ms sustain_s
      true voices i hi
    have hz : (zigzag_indices 1 1).getD i (0, 0) = (0, 0) := by
      have : zigzag_indices 1 1 = [(0, 0)] := by decide
      rw [this]
      match i with
      | 0 => rfl
      | n + 1 => rfl
    rw [hz] at h
    simpa [constant_power_pan] using h

/-- Witness for `plan_schedule_pan_law` at a concrete input: a mono
schedule has unit gains on both channels for its first oscillator. -/
theorem plan_schedule_pan_law_witness :
    ((0 : ℕ) < (plan_schedule (K := ℚ) (fun _ => (1, 1)) freqs2x2 2 8000 100 0 false 2).1.length) ∧
    ((plan_schedule (K := ℚ) (fun _ => (1, 1)) freqs2x2 2 8000 100 0 false 2).1.get
        ⟨0, of_decide_eq_true (by with_unfolding_all rfl)⟩).pan_l = 1 ∧
    ((plan_schedule (K := ℚ) (fun _ => (1, 1)) freqs2x2 2 8000 100 0 false 2).1.get
        ⟨0, of_decide_eq_true (by with_unfolding_all rfl)⟩).pan_r = 1 :=
  ⟨of_decide_eq_true (by with_unfolding_all rfl),
    ((plan_schedule_pan_law (K := ℚ)).1 (fun _ => (1, 1)) freqs2x2 2 8000 100 0 2 0
      (of_decide_eq_true (by with_unfolding_all rfl))).1,
    ((plan_schedule_pan_law (K := ℚ)).1 (fun _ => (1, 1)) freqs2x2 2 8000 100 0 2 0
      (of_decide_eq_true (by with_unfolding_all rfl))).2⟩

/-- C5 counterexample: a width-1 stereo grid does NOT get an equal-gain
mid pan; its oscillator has `pan_l = 1` and `pan_r = 0`. -/
theorem width1_pan_counterexample :
    ((plan_schedule (K := ℝ) constant_power_pan (fun _ _ => 100) 1 8000 100 0 true 1).1.getD 0
        oscDefault).pan_l
      ≠ ((plan_schedule (K := ℝ) constant_power_pan (fun _ _ => 100) 1 8000 100 0 true 1).1.getD 0
        oscDefault).pan_r := by
  have hz : zigzag_indices 1 1 = [(0, 0)] := by decide
  simp [plan_schedule, hz, constant_power_pan]

/-- C4 (amended): neither `plan_schedule` nor `render_audio` clamps
`voices ≤ 0` to 1.  `plan_schedule` uses the value as given (each window
is `[i*step_s, (i+voices)*step_s)`, empty for `voices ≤ 0` and
`step_ms ≥ 0`), and `render_audio` merely avoids the division by zero by
setting the per-oscillator gain to `1.0` (not the `voices = 1` gain
`0.95`). -/
theorem voices_nonpos_behavior (sqrtv : K) (cpp : K → K × K) (freqs : ℕ → ℕ → K)
    (size sr : ℕ) (step_ms sustain_s : K) (stereo : Bool) (voices : ℤ)
    (hv : voices ≤ 0) :
    perOscGain sqrtv voices = 1 ∧
    (∀ i (hi : i < (plan_schedule cpp freqs size sr step_ms sustain_s stereo voices).1.length),
      ((plan_schedule cpp freqs size sr step_ms sustain_s stereo voices).1[i]).stop
          = ((i : K) + (voices : K)) * (step_ms / 1000) ∧
      (0 ≤ step_ms →
        ((plan_schedule cpp freqs size sr step_ms sustain_s stereo voices).1[i]).stop
          ≤ ((plan_schedule cpp freqs size sr step_ms sustain_s stereo voices).1[i]).start)) := by
  constructor
  · simp [perOscGain, not_lt.mpr hv]
  · intro i hi
    have h := plan_schedule_get cpp freqs size sr step_ms sustain_s stereo voices i hi
    refine ⟨h.2, fun hstep => ?_⟩
    rw [h.1, h.2]
    have hvK : (voices : K) ≤ 0 := by exact_mod_cast hv
    have hstepS : 0 ≤ step_ms / 1000 := div_nonneg hstep (by norm_num)
    nlinarith [hstepS, hvK]

/-- Witness for `voices_nonpos_behavior` at a concrete input. -/
theorem voices_nonpos_behavior_witness :
    ((0 : ℤ) ≤ 0) ∧
    (perOscGain (K := ℚ) 1 0 = 1 ∧
    (∀ i (hi : i < (plan_schedule (K := ℚ) (fun _ => (1, 1)) (fun _ _ => 100) 1 8000 100 0
        false 0).1.length),
      ((plan_schedule (K := ℚ) (fun _ => (1, 1)) (fun _ _ => 100) 1 8000 100 0 false 0).1[i]).stop
          = ((i : ℚ) + ((0 : ℤ) : ℚ)) * (100 / 1000) ∧
      ((0 : ℚ) ≤ 100 →
        ((plan_schedule (K := ℚ) (fun _ => (1, 1)) (fun _ _ => 100) 1 8000 100 0 false 0).1[i]).stop
          ≤ ((plan_schedule (K := ℚ) (fun _ => (1, 1)) (fun _ _ => 100) 1 8000 100 0
              false 0).1[i]).start))) :=
  ⟨le_refl 0,
    voices_nonpos_behavior (K := ℚ) 1 (fun _ => (1, 1)) (fun _ _ => 100) 1 8000 100 0 false 0
      (le_refl 0)⟩

/-- C4 counterexample: `plan_schedule` with `voices = 0` does NOT behave
as with `voices = 1`; the first window ends at `0` instead of `step_s`. -/
theorem voices_no_clamp_counterexample :
    ((plan_schedule (K := ℚ) (fun _ => (1, 1)) (fun _ _ => 100) 1 8000 100 0 false 0).1.getD 0
        oscDefault).stop
      ≠ ((plan_schedule (K := ℚ) (fun _ => (1, 1)) (fun _ _ => 100) 1 8000 100 0 false 1).1.getD 0
        oscDefault).stop :=
  of_decide_eq_true (by with_unfolding_all rfl)

/-- A left fold by `max` is at least its initial value. -/
theorem foldl_max_init_le (l : List K) (a : K) : a ≤ l.foldl max a := by
  induction l generalizing a with
  | nil => exact le_refl a
  | cons y t ih => exact le_trans (le_max_left a y) (ih (max a y))

/-- Every member of a list is at most its left `max` fold. -/
theorem mem_le_foldl_max {l : List K} {x : K} (hx : x ∈ l) (a : K) :
    x ≤ l.foldl max a := by
  induction l generalizing a with
  | nil => cases hx
  | cons y t ih =>
      rcases List.mem_cons.mp hx with h | h
      · subst h
        exact le_trans (le_max_right a x) (foldl_max_init_le t (max a x))
      · exact ih h (max a y)

/-- Every sample's magnitude is bounded by the encoder's peak. -/
theorem abs_le_peakOf (data : List (List K)) (x : K) (hx : x ∈ data.flatten) :
    |x| ≤ peakOf data := by
  unfold peakOf
  have hne : data.flatten ≠ [] := List.ne_nil_of_mem hx
  rw [if_neg (by simpa [List.isEmpty_iff] using hne)]
  exact mem_le_foldl_max (List.mem_map_of_mem _ hx) 0

/-- The encoder's peak is non-negative. -/
theorem peakOf_nonneg (data : List (List K)) : 0 ≤ peakOf data := by
  unfold peakOf
  by_cases h : data.flatten.isEmpty
  · rw [if_pos h]; norm_num
  · rw [if_neg h]
    exact foldl_max_init_le _ 0

/-- Truncation toward zero of a value strictly inside `(-m, m)` stays
strictly inside. -/
theorem kTrunc_mem_ball {q : K} {m : ℤ} (hm : 0 < m) (h : |q| < (m : ℤ)) :
    -m < kTrunc q ∧ kTrunc q < m := by
  rw [abs_lt] at h
  unfold kTrunc
  by_cases hq : 0 ≤ q
  · rw [if_pos hq]
    constructor
    · have h0 : (0 : ℤ) ≤ ⌊q⌋ := Int.floor_nonneg.mpr hq
      omega
    · exact Int.floor_lt.mpr h.2
  · rw [if_neg hq]
    push_neg at hq
    have h1 : ⌊-q⌋ < m := Int.floor_lt.mpr (by linarith [h.1])
    have h2 : (0 : ℤ) ≤ ⌊-q⌋ := Int.floor_nonneg.mpr (by linarith)
    omega

/-- C10: int16 quantisation in `write_wav_int16_stereo` cannot overflow:
after peak normalisation every scaled sample has magnitude at most
`0.999`, so the value times `32767` truncates strictly inside
`[-32768, 32767]` and the `astype(np.int16)` conversion never wraps. -/
theorem int16_quantization_no_overflow (data : List (List K)) (x : K)
    (hx : x ∈ data.flatten) :
    |x * normOf data| ≤ 999 / 1000 ∧
    -32768 < kTrunc (x * normOf data * 32767) ∧
    kTrunc (x * normOf data * 32767) < 32767 ∧
    int16Wrap (kTrunc (x * normOf data * 32767)) = kTrunc (x * normOf data * 32767) := by
  have hpk := abs_le_peakOf data x hx
  have hpk0 := peakOf_nonneg data
  have hscaled : |x * normOf data| ≤ 999 / 1000 := by
    unfold normOf
    by_cases hz : peakOf data = 0
    · rw [if_pos hz]
      rw [hz] at hpk
      have : x = 0 := abs_nonpos_iff.mp hpk
      simp [this]
      norm_num
    · rw [if_neg hz]
      have hpos : 0 < peakOf data := lt_of_le_of_ne hpk0 (Ne.symm hz)
      have hnorm0 : 0 ≤ min 1 ((999 / 1000) / peakOf data) :=
        le_min (by norm_num) (div_nonneg (by norm_num) hpk0)
      rw [abs_mul, abs_of_nonneg hnorm0]
      calc |x| * min 1 ((999 / 1000) / peakOf data)
          ≤ peakOf data * min 1 ((999 / 1000) / peakOf data) :=
            mul_le_mul_of_nonneg_right hpk hnorm0
        _ ≤ peakOf data * ((999 / 1000) / peakOf data) :=
            mul_le_mul_of_nonneg_left (min_le_right _ _) (le_of_lt hpos)
        _ = 999 / 1000 := mul_div_cancel₀ _ hz
  refine ⟨hscaled, ?_⟩
  have habs : |x * normOf data * 32767| < ((32735 : ℤ) : K) := by
    rw [abs_mul]
    have h32 : |(32767 : K)| = 32767 := abs_of_nonneg (by norm_num)
    rw [h32]
    calc |x * normOf data| * 32767 ≤ (999 / 1000) * 32767 :=
          mul_le_mul_of_nonneg_right hscaled (by norm_num)
      _ < ((32735 : ℤ) : K) := by push_cast; norm_num
  have hball := kTrunc_mem_ball (by norm_num : (0 : ℤ) < 32735) habs
  refine ⟨by omega, by omega, ?_⟩
  unfold int16Wrap
  omega

/-- Witness for `int16_quantization_no_overflow` at a concrete input. -/
theorem int16_quantization_no_overflow_witness :
    ((2 : ℚ) ∈ ([[2, -1]] : List (List ℚ)).flatten) ∧
    (|(2 : ℚ) * normOf [[2, -1]]| ≤ 999 / 1000 ∧
    -32768 < kTrunc ((2 : ℚ) * normOf [[2, -1]] * 32767) ∧
    kTrunc ((2 : ℚ) * normOf [[2, -1]] * 32767) < 32767 ∧
    int16Wrap (kTrunc ((2 : ℚ) * normOf [[2, -1]] * 32767))
      = kTrunc ((2 : ℚ) * normOf [[2, -1]] * 32767)) :=
  ⟨by simp,
    int16_quantization_no_overflow [[2, -1]] 2 (by simp)⟩

/-- C8 (amended): the encoder performs no shape validation at all: every
buffer — of any row widths, valid `N×2` or not — is peak-normalised,
quantised and encoded elementwise (the model is a total function: the
source has no reachable raise on any finite buffer, and no rejection
path). -/
theorem write_wav_total (data : List (List K)) :
    (write_wav_int16_stereo data).length = (data.map List.length).sum := by
  unfold write_wav_int16_stereo
  rw [List.length_map, List.length_flatten]

/-- C8 counterexample: a malformed `1×3` buffer is NOT rejected before
encoding; `write_wav_int16_stereo` encodes all three samples. -/
theorem malformed_buffer_encoded_counterexample :
    write_wav_int16_stereo (K := ℚ) [[1, 2, 3]] = [10911, 21822, 32734] :=
  of_decide_eq_true (by with_unfolding_all rfl)

/-- C9: `update_buffer` replaces the buffer, resets the cursor to exactly
0 and leaves all other looper state unchanged; a subsequent callback
never reads out of bounds of the new buffer — it emits exactly `frames`
samples and leaves the cursor inside the new buffer — even when the new
buffer is shorter than the previous cursor. -/
theorem update_buffer_spec (st : Looper K) (nb : NewBuffer K) :
    (update_buffer st nb).buffer = convertBuffer nb ∧
    (update_buffer st nb).pos = 0 ∧
    (update_buffer st nb).sample_rate = st.sample_rate ∧
    (∀ frames : ℕ,
      ((looperCallback (update_buffer st nb) frames).1).length = frames ∧
      (looperCallback (update_buffer st nb) frames).2.pos ≤ (convertBuffer nb).length) := by
  refine ⟨rfl, rfl, rfl, ?_⟩
  intro frames
  unfold looperCallback update_buffer
  by_cases hb : (convertBuffer nb).length = 0
  · simp [hb]
  · have hn : 0 < (convertBuffer nb).length := Nat.pos_of_ne_zero hb
    by_cases hf : frames ≤ (convertBuffer nb).length - 0
    · simp only [hb, if_false, hf, if_true]
      refine ⟨?_, ?_⟩
      · simp only [List.length_take, List.length_drop, Nat.sub_zero]
        simp only [Nat.sub_zero] at hf
        omega
      · exact le_of_lt (Nat.mod_lt _ hn)
    · simp only [hb, if_false, hf, if_false]
      refine ⟨?_, ?_⟩
      · simp only [List.length_append, List.length_drop, List.length_flatten,
          List.map_replicate, List.sum_replicate, smul_eq_mul, List.length_take,
          Nat.sub_zero]
        simp only [Nat.sub_zero] at hf
        have hr : (frames - (convertBuffer nb).length) % (convertBuffer nb).length
            < (convertBuffer nb).length := Nat.mod_lt _ hn
        have hdm := Nat.div_add_mod (frames - (convertBuffer nb).length)
          (convertBuffer nb).length
        have hdm2 : (frames - (convertBuffer nb).length) / (convertBuffer nb).length
              * (convertBuffer nb).length
            + (frames - (convertBuffer nb).length) % (convertBuffer nb).length
            = frames - (convertBuffer nb).length := Nat.div_add_mod' _ _
        omega
      · simp only [Nat.sub_zero]
        exact le_of_lt (Nat.mod_lt _ hn)

/-- C6 (amended): the waveform LUT is rebuilt by every non-trivial
`render_audio` call: across a process, the number of
`_build_waveform_lut` invocations equals the number of calls that reach
the synthesis path, with no cap at one build per waveform kind. -/
theorem lut_builds_per_call (calls : List (List (Osc K) × K × ℕ)) :
    processLutBuilds calls
      = calls.countP (fun c => decide (c.1.length ≠ 0 ∧ nTotalOf c.2.1 c.2.2 ≠ 0)) := by
  induction calls with
  | nil => rfl
  | cons c cs ih =>
      have hstep : processLutBuilds (c :: cs) = renderLutBuilds c.1 c.2.1 c.2.2
          + processLutBuilds cs := rfl
      rw [hstep, ih, List.countP_cons]
      by_cases h : c.1.length = 0 ∨ nTotalOf c.2.1 c.2.2 = 0
      · have hd : (decide (c.1.length ≠ 0 ∧ nTotalOf c.2.1 c.2.2 ≠ 0)) = false := by
          rcases h with h | h <;> simp [h]
        rw [hd]
        unfold renderLutBuilds
        rw [if_pos h]
        simp
      · have hd : (decide (c.1.length ≠ 0 ∧ nTotalOf c.2.1 c.2.2 ≠ 0)) = true := by
          push_neg at h
          simp [h.1, h.2]
        rw [hd]
        unfold renderLutBuilds
        rw [if_neg h]
        simp [Nat.add_comm]

/-- C6 counterexample: two successive renders of the same waveform kind
perform two LUT builds (the second call rebuilds the table); a
process-lifetime cache keyed by waveform kind would build at most one. -/
theorem lut_rebuilt_counterexample :
    processLutBuilds (K := ℚ)
        [([⟨100, 0, 1, 1, 1⟩], 1, 1), ([⟨100, 0, 1, 1, 1⟩], 1, 1)] = 2 ∧
    renderLutBuilds (K := ℚ) [⟨100, 0, 1, 1, 1⟩] 1 1 = 1 :=
  ⟨of_decide_eq_true (by with_unfolding_all rfl),
    of_decide_eq_true (by with_unfolding_all rfl)⟩

/-- C7 counterexample: `render_audio` on an empty oscillator list with the
unknown waveform kind `"foo"` does NOT raise — it returns the zero
buffer, so the unknown kind is not rejected on every input. -/
theorem unknown_waveform_no_raise_counterexample :
    render_audio (K := ℚ) (fun _ => 0) (fun _ => 1) 1 [] 1 1 1000 true "foo" 0 1
      = Except.ok [(0, 0)] := by
  with_unfolding_all rfl

/-- C7 (amended): with a non-empty oscillator list and at least one
output sample, an unknown waveform kind makes `render_audio` raise
(`Except.error`) before any synthesis work, producing no samples, while
every recognized kind (`saw`, `sine`, `triangle`, `square`, after
lowercasing) renders to `Except.ok`. -/
theorem unknown_waveform_fails_fast (sinTab : ℕ → K) (cosPi : K → K) (sqrtv : K)
    (oscs : List (Osc K)) (T : K) (sr : ℕ) (block_ms : K) (mono : Bool)
    (waveform : String) (fade_ms : K) (voices : ℤ)
    (hosc : oscs ≠ []) (hn : nTotalOf T sr ≠ 0)
    (hunk : waveform.toLower ∉ ["saw", "sine", "triangle", "square"]) :
    render_audio sinTab cosPi sqrtv oscs T sr block_ms mono waveform fade_ms voices
      = Except.error ("Forme d onde inconnue pour la LUT : " ++ waveform) ∧
    (∀ w2 : String, w2.toLower ∈ ["saw", "sine", "triangle", "square"] →
      ∃ out, render_audio sinTab cosPi sqrtv oscs T sr block_ms mono w2 fade_ms voices
        = Except.ok out) := by
  have hearly : ¬(oscs.length = 0 ∨ nTotalOf T sr = 0) := by
    push_neg
    exact ⟨fun h => hosc (List.length_eq_zero.mp h), hn⟩
  constructor
  · have hbuild : build_waveform_lut sinTab waveform WAVE_LUT_SIZE
        = Except.error ("Forme d onde inconnue pour la LUT : " ++ waveform) := by
      simp only [List.mem_cons, List.mem_singleton, not_or] at hunk
      obtain ⟨h1, h2, h3, h4⟩ := hunk
      simp only [build_waveform_lut, if_neg h1, if_neg h2, if_neg h3]
      rw [if_neg (by simpa using h4)]
    simp only [render_audio, if_neg hearly, hbuild]
  · intro w2 hw2
    have hbuild : ∃ lutf, build_waveform_lut sinTab w2 WAVE_LUT_SIZE = Except.ok lutf := by
      simp only [List.mem_cons, List.not_mem_nil, or_false] at hw2
      rcases hw2 with h | h | h | h
      · exact ⟨fun k => 2 * ((k : K) / (WAVE_LUT_SIZE : K)) - 1,
          by simp [build_waveform_lut, h]⟩
      · exact ⟨sinTab, by simp [build_waveform_lut, h]⟩
      · exact ⟨fun k => 2 * |2 * ((k : K) / (WAVE_LUT_SIZE : K)
            - (⌊(k : K) / (WAVE_LUT_SIZE : K) + 1 / 2⌋ : ℤ))| - 1,
          by simp [build_waveform_lut, h]⟩
      · exact ⟨fun k => if (k : K) / (WAVE_LUT_SIZE : K) < 1 / 2 then 1 else -1,
          by simp [build_waveform_lut, h]⟩
    obtain ⟨lutf, hb⟩ := hbuild
    cases hres : render_audio sinTab cosPi sqrtv oscs T sr block_ms mono w2 fade_ms voices with
    | error e =>
        exfalso
        simp only [render_audio, if_neg hearly, hb] at hres
        exact Except.noConfusion hres
    | ok out => exact ⟨out, rfl⟩

/-- Witness for `unknown_waveform_fails_fast` at a concrete input. -/
theorem unknown_waveform_fails_fast_witness :
    (([⟨100, 0, 1, 1, 1⟩] : List (Osc ℚ)) ≠ [] ∧ nTotalOf (1 : ℚ) 1 ≠ 0 ∧
      "foo".toLower ∉ ["saw", "sine", "triangle", "square"]) ∧
    render_audio (K := ℚ) (fun _ => 0) (fun _ => 1) 1 [⟨100, 0, 1, 1, 1⟩] 1 1 1000 true
        "foo" 0 1
      = Except.error ("Forme d onde inconnue pour la LUT : " ++ "foo") :=
  ⟨⟨of_decide_eq_true (by with_unfolding_all rfl),
      of_decide_eq_true (by with_unfolding_all rfl),
      of_decide_eq_true (by with_unfolding_all rfl)⟩,
    (unknown_waveform_fails_fast (K := ℚ) (fun _ => 0) (fun _ => 1) 1 [⟨100, 0, 1, 1, 1⟩]
      1 1 1000 true "foo" 0 1
      (of_decide_eq_true (by with_unfolding_all rfl))
      (of_decide_eq_true (by with_unfolding_all rfl))
      (of_decide_eq_true (by with_unfolding_all rfl))).1⟩

/-- C3 counterexample: `render_audio` is NOT block-size invariant for
every oscillator list: on a list whose start times are not sorted in
list order, a whole-signal block and one-sample blocks disagree (the
two-pointer admission skips the out-of-order oscillator). -/
theorem render_audio_blocksize_counterexample :
    (render_audio (K := ℚ) (fun _ => 0) (fun _ => 1) 1
        [⟨100, 2, 4, 1, 1⟩, ⟨100, 0, 2, 1, 1⟩] 4 1 1000000 true "saw" 0 1).toOption
      ≠ (render_audio (K := ℚ) (fun _ => 0) (fun _ => 1) 1
        [⟨100, 2, 4, 1, 1⟩, ⟨100, 0, 2, 1, 1⟩] 4 1 1000 true "saw" 0 1).toOption :=
  of_decide_eq_true (by with_unfolding_all rfl)

/-- Specification of the admission loop: it returns the first index `m`
at or after `next` whose start sample is not before `s1` (or `nOsc`),
having appended exactly the indices `next, …, m-1` to the active list. -/
theorem admitLoop_spec (startS : ℕ → ℤ) (nOsc : ℕ) (s1 : ℤ) :
    ∀ fuel next act, nOsc - next ≤ fuel → next ≤ nOsc →
    ∃ m, admitLoop startS nOsc s1 next act = (m, act ++ List.range' next (m - next)) ∧
      next ≤ m ∧ m ≤ nOsc ∧
      (∀ i, next ≤ i → i < m → startS i < s1) ∧
      (m < nOsc → s1 ≤ startS m) := by
  intro fuel
  induction fuel with
  | zero =>
      intro next act hfuel hn
      have heq : next = nOsc := by omega
      have hnn : ¬(next < nOsc ∧ startS next < s1) := by
        intro h
        omega
      refine ⟨next, ?_, le_refl _, by omega, ?_, by omega⟩
      · rw [admitLoop, dif_neg hnn]
        simp
      · intro i h1 h2
        omega
  | succ fuel ih =>
      intro next act hfuel hn
      by_cases hc : next < nOsc ∧ startS next < s1
      · obtain ⟨m, hres, hm1, hm2, hm3, hm4⟩ := ih (next + 1) (act ++ [next])
          (by omega) (by omega)
        refine ⟨m, ?_, by omega, hm2, ?_, hm4⟩
        · rw [admitLoop, dif_pos hc, hres]
          rw [List.append_assoc]
          have hms : m - next = (m - (next + 1)) + 1 := by omega
          rw [hms, List.range'_succ]
          simp
        · intro i h1 h2
          rcases Nat.eq_or_lt_of_le h1 with h | h
          · exact h ▸ hc.2
          · exact hm3 i (by omega) h2
      · refine ⟨next, ?_, le_refl _, hn, ?_, ?_⟩
        · rw [admitLoop, dif_neg hc]
          simp
        · intro i h1 h2
          omega
        · intro hlt
          rcases not_and_or.mp hc with h | h
          · exact absurd hlt h
          · exact not_lt.mp h

/-- Dropping filtered-out elements whose image is zero does not change a
mapped sum. -/
theorem sum_map_filter_eq_sum_map (l : List ℕ) (p : ℕ → Bool) (g : ℕ → K)
    (h : ∀ a ∈ l, p a = false → g a = 0) :
    ((l.filter p).map g).sum = (l.map g).sum := by
  induction l with
  | nil => rfl
  | cons a t ih =>
      have ht : ∀ b ∈ t, p b = false → g b = 0 := fun b hb => h b (List.mem_cons_of_mem a hb)
      by_cases hp : p a
      · rw [List.filter_cons_of_pos hp]
        simp [ih ht]
      · rw [List.filter_cons_of_neg (by simpa using hp)]
        rw [ih ht]
        simp [h a (List.mem_cons_self a t) (by simpa using hp)]

/-- Extending a mapped sum over `range m` to `range n` when all the new
indices map to zero. -/
theorem sum_map_range_extend (m n : ℕ) (hmn : m ≤ n) (g : ℕ → K)
    (h : ∀ i, m ≤ i → i < n → g i = 0) :
    ((List.range m).map g).sum = ((List.range n).map g).sum := by
  have hsplit : List.range n = List.range m ++ (List.range (n - m)).map (fun x => m + x) := by
    rw [← List.range_add]
    congr 1
    omega
  rw [hsplit, List.map_append, List.sum_append]
  have hz : (((List.range (n - m)).map (fun x => m + x)).map g).sum = 0 := by
    apply List.sum_eq_zero
    intro x hx
    simp only [List.mem_map, List.mem_range] at hx
    obtain ⟨y, ⟨t, ht, hty⟩, hyx⟩ := hx
    subst hyx
    subst hty
    exact h (m + t) (by omega) (by omega)
  rw [hz, add_zero]

/-- An oscillator contributes zero outside its `[start, stop)` sample
window. -/
theorem sigVal_eq_zero (lut : ℕ → K) (cosPi : K → K) (oscs : List (Osc K)) (sr nf : ℕ)
    (gain : K) (i s : ℕ)
    (h : ¬(startSamp oscs sr i ≤ (s : ℤ) ∧ (s : ℤ) < endSamp oscs sr i)) :
    sigVal lut cosPi oscs sr nf gain i s = 0 := by
  simp only [sigVal]
  rw [if_neg h]
  ring

/-- Inside a block, the sum over the maintained active list equals the
whole-signal reference sum: filtered-out oscillators already ended and
not-yet-admitted oscillators have not started, so both contribute zero. -/
theorem blockContrib_eq_refSample (lut : ℕ → K) (cosPi : K → K) (oscs : List (Osc K))
    (sr nf : ℕ) (gain : K) (mono : Bool) (m s0 s : ℕ)
    (hm : m ≤ oscs.length) (hs0 : s0 ≤ s)
    (hup : ∀ i, m ≤ i → i < oscs.length → (s : ℤ) < startSamp oscs sr i) :
    blockContrib lut cosPi oscs sr nf gain mono
        ((List.range m).filter fun i => decide ((s0 : ℤ) < endSamp oscs sr i)) s
      = refSample lut cosPi oscs sr nf gain mono s := by
  have hdead : ∀ g : ℕ → K,
      (∀ i, sigVal lut cosPi oscs sr nf gain i s = 0 → g i = 0) →
      (((List.range m).filter fun i => decide ((s0 : ℤ) < endSamp oscs sr i)).map g).sum
        = ((List.range oscs.length).map g).sum := by
    intro g hg
    rw [sum_map_filter_eq_sum_map]
    · apply sum_map_range_extend m oscs.length hm g
      intro i h1 h2
      apply hg
      apply sigVal_eq_zero
      intro hmask
      exact absurd hmask.1 (not_le.mpr (hup i h1 h2))
    · intro a _ hfa
      apply hg
      apply sigVal_eq_zero
      intro hmask
      have hlt : (s0 : ℤ) < endSamp oscs sr a :=
        lt_of_le_of_lt (by exact_mod_cast hs0) hmask.2
      simp [hlt] at hfa
  unfold blockContrib refSample
  cases mono with
  | false =>
      simp only [Bool.false_eq_true, if_false]
      rw [hdead (fun i => sigVal lut cosPi oscs sr nf gain i s * panLArr oscs i)
          (fun i h => by simp [h]),
        hdead (fun i => sigVal lut cosPi oscs sr nf gain i s * panRArr oscs i)
          (fun i h => by simp [h])]
      rfl
  | true =>
      simp only [if_true]
      rw [hdead (fun i => sigVal lut cosPi oscs sr nf gain i s) (fun i h => h)]
      rfl

/-- One block of the sweep preserves the invariant: the newly covered
samples `[k*nBlock, min nTotal ((k+1)*nBlock))` receive exactly the
reference value, because with sorted start samples the active list after
admission and filtering is precisely the set of oscillators whose window
meets the block. -/
theorem renderInv_step (lut : ℕ → K) (cosPi : K → K) (oscs : List (Osc K)) (sr nf : ℕ)
    (gain : K) (mono : Bool) (nTotal nBlock k : ℕ) (st : RState K)
    (hnb : 1 ≤ nBlock) (hk : k < (nTotal + nBlock - 1) / nBlock)
    (hsort : ∀ j, j < oscs.length → ∀ i, i ≤ j →
      startSamp oscs sr i ≤ startSamp oscs sr j)
    (hinv : renderInv lut cosPi oscs sr nf gain mono nTotal nBlock k st) :
    renderInv lut cosPi oscs sr nf gain mono nTotal nBlock (k + 1)
      (renderBlock lut cosPi oscs sr nf gain mono nTotal nBlock k st) := by
  obtain ⟨hO1, hO2, hN1, hN2, hA⟩ := hinv
  have hs0lt : k * nBlock < nTotal := by
    have h2 : (k + 1) * nBlock ≤ nTotal + nBlock - 1 := (Nat.le_div_iff_mul_le hnb).mp hk
    have h3 : (k + 1) * nBlock = k * nBlock + nBlock := by ring
    omega
  have hBk : min nTotal (k * nBlock) = k * nBlock := min_eq_right (le_of_lt hs0lt)
  have hs1gt : k * nBlock < min nTotal ((k + 1) * nBlock) := by
    have h3 : (k + 1) * nBlock = k * nBlock + nBlock := by ring
    omega
  have hguard : ¬(min nTotal ((k + 1) * nBlock) ≤ k * nBlock) := not_le.mpr hs1gt
  obtain ⟨m, hres, hm1, hm2, hm3, hm4⟩ :=
    admitLoop_spec (startSamp oscs sr) oscs.length
      ((min nTotal ((k + 1) * nBlock) : ℕ) : ℤ)
      (oscs.length - st.nextOsc) st.nextOsc st.active (le_refl _) hN1
  have hact2 : (st.active ++ List.range' st.nextOsc (m - st.nextOsc)).filter
        (fun i => decide (((k * nBlock : ℕ) : ℤ) < endSamp oscs sr i))
      = (List.range m).filter
          (fun i => decide (((k * nBlock : ℕ) : ℤ) < endSamp oscs sr i)) := by
    have hactfilter : st.active.filter
          (fun i => decide (((k * nBlock : ℕ) : ℤ) < endSamp oscs sr i))
        = (List.range st.nextOsc).filter
            (fun i => decide (((k * nBlock : ℕ) : ℤ) < endSamp oscs sr i)) := by
      rw [hA, List.filter_filter]
      apply List.filter_congr
      intro a _
      by_cases he : ((k * nBlock : ℕ) : ℤ) < endSamp oscs sr a
      · have hprev : ((((k - 1) * nBlock : ℕ)) : ℤ) < endSamp oscs sr a := by
          refine lt_of_le_of_lt ?_ he
          exact_mod_cast Nat.mul_le_mul_right nBlock (by omega : k - 1 ≤ k)
        rw [decide_eq_true he, decide_eq_true hprev]
        rfl
      · rw [decide_eq_false he]
        rfl
    rw [List.filter_append, hactfilter, ← List.filter_append]
    congr 1
    rw [List.range_eq_range', List.range_eq_range']
    have h := List.range'_append 0 st.nextOsc (m - st.nextOsc) 1
    simp only [one_mul, Nat.zero_add] at h
    rw [h]
    congr 1
    omega
  have hrb : renderBlock lut cosPi oscs sr nf gain mono nTotal nBlock k st
      = { outL := fun s =>
            if k * nBlock ≤ s ∧ s < min nTotal ((k + 1) * nBlock) then
              st.outL s + (blockContrib lut cosPi oscs sr nf gain mono
                ((List.range m).filter
                  (fun i => decide (((k * nBlock : ℕ) : ℤ) < endSamp oscs sr i))) s).1
            else st.outL s
          outR := fun s =>
            if k * nBlock ≤ s ∧ s < min nTotal ((k + 1) * nBlock) then
              st.outR s + (blockContrib lut cosPi oscs sr nf gain mono
                ((List.range m).filter
                  (fun i => decide (((k * nBlock : ℕ) : ℤ) < endSamp oscs sr i))) s).2
            else st.outR s
          active := (List.range m).filter
            (fun i => decide (((k * nBlock : ℕ) : ℤ) < endSamp oscs sr i))
          nextOsc := m } := by
    simp only [renderBlock]
    rw [if_neg hguard, hres]
    simp only [hact2]
  have hup : ∀ s : ℕ, s < min nTotal ((k + 1) * nBlock) →
      ∀ i, m ≤ i → i < oscs.length → (s : ℤ) < startSamp oscs sr i := by
    intro s hs i h1 h2
    have hmn : m < oscs.length := lt_of_le_of_lt h1 h2
    have hst := hm4 hmn
    have hmono := hsort i h2 m h1
    have hscast : (s : ℤ) < ((min nTotal ((k + 1) * nBlock) : ℕ) : ℤ) := by
      exact_mod_cast hs
    omega
  rw [hrb]
  unfold renderInv
  refine ⟨?_, ?_, hm2, ?_, ?_⟩
  · intro s hs
    by_cases hlow : s < k * nBlock
    · have hcond : ¬(k * nBlock ≤ s ∧ s < min nTotal ((k + 1) * nBlock)) := by omega
      refine ⟨?_, ?_⟩ <;> simp only [] <;> rw [if_neg hcond]
      · exact (hO1 s (by omega)).1
      · exact (hO1 s (by omega)).2
    · push_neg at hlow
      have hcond : k * nBlock ≤ s ∧ s < min nTotal ((k + 1) * nBlock) := ⟨hlow, hs⟩
      have hz := hO2 s (by omega)
      have hcontrib := blockContrib_eq_refSample lut cosPi oscs sr nf gain mono m
        (k * nBlock) s hm2 hlow (hup s hs)
      refine ⟨?_, ?_⟩ <;> simp only [] <;> rw [if_pos hcond]
      · rw [hz.1, zero_add, hcontrib]
      · rw [hz.2, zero_add, hcontrib]
  · intro s hs
    have hcond : ¬(k * nBlock ≤ s ∧ s < min nTotal ((k + 1) * nBlock)) := by omega
    constructor <;> simp only [] <;> rw [if_neg hcond]
    · exact (hO2 s (by omega)).1
    · exact (hO2 s (by omega)).2
  · intro i hi
    by_cases h : i < st.nextOsc
    · have h1 := hN2 i h
      have h2 : ((min nTotal (k * nBlock) : ℕ) : ℤ)
          ≤ ((min nTotal ((k + 1) * nBlock) : ℕ) : ℤ) := by
        have : (k + 1) * nBlock = k * nBlock + nBlock := by ring
        omega
      omega
    · push_neg at h
      exact hm3 i h hi
  · simp only [Nat.add_sub_cancel]

/-- The invariant holds after any prefix of the block sweep. -/
theorem render_foldl_ref (lut : ℕ → K) (cosPi : K → K) (oscs : List (Osc K)) (sr nf : ℕ)
    (gain : K) (mono : Bool) (nTotal nBlock : ℕ) (hnb : 1 ≤ nBlock)
    (hsort : ∀ j, j < oscs.length → ∀ i, i ≤ j →
      startSamp oscs sr i ≤ startSamp oscs sr j) :
    ∀ k, k ≤ (nTotal + nBlock - 1) / nBlock →
      renderInv lut cosPi oscs sr nf gain mono nTotal nBlock k
        ((List.range k).foldl
          (fun st b => renderBlock lut cosPi oscs sr nf gain mono nTotal nBlock b st)
          ⟨fun _ => 0, fun _ => 0, [], 0⟩) := by
  intro k
  induction k with
  | zero =>
      intro _
      unfold renderInv
      refine ⟨?_, ?_, Nat.zero_le _, ?_, rfl⟩
      · intro s hs
        simp at hs
      · intro s _
        exact ⟨rfl, rfl⟩
      · intro i hi
        exact absurd hi (Nat.not_lt_zero i)
  | succ k ih =>
      intro hk1
      rw [List.range_succ, List.foldl_append, List.foldl_cons, List.foldl_nil]
      exact renderInv_step lut cosPi oscs sr nf gain mono nTotal nBlock k _ hnb
        (by omega) hsort (ih (by omega))

/-- With sorted start samples, `render_audio` computes exactly the
whole-signal reference, for every block size. -/
theorem render_audio_eq_renderRef (sinTab : ℕ → K) (cosPi : K → K) (sqrtv : K)
    (oscs : List (Osc K)) (T : K) (sr : ℕ) (block_ms : K) (mono : Bool)
    (waveform : String) (fade_ms : K) (voices : ℤ)
    (hsort : ∀ j, j < oscs.length → ∀ i, i ≤ j →
      startSamp oscs sr i ≤ startSamp oscs sr j) :
    render_audio sinTab cosPi sqrtv oscs T sr block_ms mono waveform fade_ms voices
      = renderRef sinTab cosPi sqrtv oscs T sr mono waveform fade_ms voices := by
  by_cases hearly : oscs.length = 0 ∨ nTotalOf T sr = 0
  · simp only [render_audio, renderRef, if_pos hearly]
  · simp only [render_audio, renderRef, if_neg hearly]
    cases hb : build_waveform_lut sinTab waveform WAVE_LUT_SIZE with
    | error e => rfl
    | ok lut =>
        dsimp only []
        congr 1
        apply List.map_congr_left
        intro s hs
        have hs2 : s < nTotalOf T sr := List.mem_range.mp hs
        have hnb : 1 ≤ nBlockOf sr block_ms := le_max_left 1 _
        have hinv := render_foldl_ref lut cosPi oscs sr (nFadeOf sr fade_ms)
          (perOscGain sqrtv voices) mono (nTotalOf T sr) (nBlockOf sr block_ms) hnb hsort
          ((nTotalOf T sr + nBlockOf sr block_ms - 1) / nBlockOf sr block_ms) (le_refl _)
        obtain ⟨hO1, _, _, _, _⟩ := hinv
        have hcov : nTotalOf T sr
            ≤ ((nTotalOf T sr + nBlockOf sr block_ms - 1) / nBlockOf sr block_ms)
              * nBlockOf sr block_ms := by
          have h1 := Nat.lt_mul_div_succ (nTotalOf T sr + nBlockOf sr block_ms - 1)
            (by omega : 0 < nBlockOf sr block_ms)
          have h2 : nBlockOf sr block_ms
                * ((nTotalOf T sr + nBlockOf sr block_ms - 1) / nBlockOf sr block_ms + 1)
              = nBlockOf sr block_ms
                * ((nTotalOf T sr + nBlockOf sr block_ms - 1) / nBlockOf sr block_ms)
                + nBlockOf sr block_ms := by ring
          have h3 : nBlockOf sr block_ms
                * ((nTotalOf T sr + nBlockOf sr block_ms - 1) / nBlockOf sr block_ms)
              = ((nTotalOf T sr + nBlockOf sr block_ms - 1) / nBlockOf sr block_ms)
                * nBlockOf sr block_ms := by ring
          omega
        obtain ⟨h1, h2⟩ := hO1 s (by omega)
        rw [h1, h2]

/-- C3 (amended): for every oscillator list whose rounded start samples
are non-decreasing in list order (as every `plan_schedule` output is),
`render_audio` equals the whole-signal reference evaluation, and hence
any two block sizes produce exactly the same accumulated stereo output;
for unsorted lists the invariance can fail
(`render_audio_blocksize_counterexample`). -/
theorem render_audio_blocksize_invariant_of_sorted (sinTab : ℕ → K) (cosPi : K → K)
    (sqrtv : K) (oscs : List (Osc K)) (T : K) (sr : ℕ) (block_ms block_ms2 : K)
    (mono : Bool) (waveform : String) (fade_ms : K) (voices : ℤ)
    (hsort : ∀ j, j < oscs.length → ∀ i, i ≤ j →
      startSamp oscs sr i ≤ startSamp oscs sr j) :
    render_audio sinTab cosPi sqrtv oscs T sr block_ms mono waveform fade_ms voices
      = renderRef sinTab cosPi sqrtv oscs T sr mono waveform fade_ms voices ∧
    render_audio sinTab cosPi sqrtv oscs T sr block_ms mono waveform fade_ms voices
      = render_audio sinTab cosPi sqrtv oscs T sr block_ms2 mono waveform fade_ms voices :=
  ⟨render_audio_eq_renderRef sinTab cosPi sqrtv oscs T sr block_ms mono waveform fade_ms
      voices hsort,
    (render_audio_eq_renderRef sinTab cosPi sqrtv oscs T sr block_ms mono waveform fade_ms
      voices hsort).trans
      (render_audio_eq_renderRef sinTab cosPi sqrtv oscs T sr block_ms2 mono waveform
        fade_ms voices hsort).symm⟩

/-- Witness for `render_audio_blocksize_invariant_of_sorted` at a
concrete sorted input. -/
theorem render_audio_blocksize_invariant_witness :
    (∀ j, j < ([⟨100, 0, 2, 1, 1⟩, ⟨100, 2, 4, 1, 1⟩] : List (Osc ℚ)).length → ∀ i, i ≤ j →
      startSamp ([⟨100, 0, 2, 1, 1⟩, ⟨100, 2, 4, 1, 1⟩] : List (Osc ℚ)) 1 i
        ≤ startSamp ([⟨100, 0, 2, 1, 1⟩, ⟨100, 2, 4, 1, 1⟩] : List (Osc ℚ)) 1 j) ∧
    (render_audio (K := ℚ) (fun _ => 0) (fun _ => 1) 1
        [⟨100, 0, 2, 1, 1⟩, ⟨100, 2, 4, 1, 1⟩] 4 1 1000000 true "saw" 0 1
      = renderRef (K := ℚ) (fun _ => 0) (fun _ => 1) 1
        [⟨100, 0, 2, 1, 1⟩, ⟨100, 2, 4, 1, 1⟩] 4 1 true "saw" 0 1 ∧
    render_audio (K := ℚ) (fun _ => 0) (fun _ => 1) 1
        [⟨100, 0, 2, 1, 1⟩, ⟨100, 2, 4, 1, 1⟩] 4 1 1000000 true "saw" 0 1
      = render_audio (K := ℚ) (fun _ => 0) (fun _ => 1) 1
        [⟨100, 0, 2, 1, 1⟩, ⟨100, 2, 4, 1, 1⟩] 4 1 1000 true "saw" 0 1) :=
  ⟨of_decide_eq_true (by with_unfolding_all rfl),
    render_audio_blocksize_invariant_of_sorted (K := ℚ) (fun _ => 0) (fun _ => 1) 1
      [⟨100, 0, 2, 1, 1⟩, ⟨100, 2, 4, 1, 1⟩] 4 1 1000000 1000 true "saw" 0 1
      (of_decide_eq_true (by with_unfolding_all rfl))⟩

end Image2Saw
